import Mathlib

/-!
Verification development for the descriptor-aggregation core of
`src/features/energy_pred/crystal_analysis.py`.

Strings are embedded as `List Char`.  Python/numpy floating-point values
that can be not-a-number are embedded as the type `F` below: a rational
number or the sentinel `F.nan`, with nan-poisoning arithmetic and
nan-is-unordered comparison, which is exactly how the operations used by
the source (`+`, `*`, `>`) behave on IEEE NaN for the values arising here.
-/

namespace CrystalAnalysis

/-- Embedding of a Python/numpy float value that may be NaN: either the
sentinel `nan` or a rational value. -/
inductive F where
  | nan : F
  | val : ℚ → F
deriving DecidableEq, Repr

/-- Addition on `F`: NaN poisons the result (IEEE behaviour of `+` for the
finite values and NaNs arising in the source). -/
def F.add : F → F → F
  | F.nan, _ => F.nan
  | _, F.nan => F.nan
  | F.val a, F.val b => F.val (a + b)

/-- Multiplication on `F`: NaN poisons the result. -/
def F.mul : F → F → F
  | F.nan, _ => F.nan
  | _, F.nan => F.nan
  | F.val a, F.val b => F.val (a * b)

/-- Strict less-than on `F`: any comparison involving NaN is false
(IEEE unordered comparison, which is what Python's `>` does). -/
def F.flt : F → F → Bool
  | F.val a, F.val b => decide (a < b)
  | _, _ => false

/-- Numeric value of a decimal-digit run, most significant digit first. -/
def natOfDigits (s : List Char) : ℕ :=
  s.foldl (fun a c => 10 * a + (c.toNat - 48)) 0

/-- Model of Python's built-in `float(str)` on the decimal literals that can
reach it from `Crystal._parse_species_string` (a run of digits optionally
followed by `.` and more digits); every other input raises `ValueError`,
modelled as `none`. -/
def floatOfString (s : List Char) : Option ℚ :=
  let ds := s.takeWhile Char.isDigit
  let rest := s.dropWhile Char.isDigit
  match rest with
  | [] => if ds.isEmpty then none else some (natOfDigits ds)
  | '.' :: fs =>
    if (!ds.isEmpty || !fs.isEmpty) && fs.all Char.isDigit then
      some ((natOfDigits ds : ℚ) + (natOfDigits fs : ℚ) / (10 : ℚ) ^ fs.length)
    else none
  | _ => none

/-- Model of Python's built-in `round` to an integer: round half to even. -/
def pyRound (q : ℚ) : ℤ :=
  let f := Int.floor q
  if q - f < 1 / 2 then f
  else if 1 / 2 < q - f then f + 1
  else if f % 2 = 0 then f else f + 1

/-- Model of Python's built-in `max` over a sequence: `none` on an empty
sequence (where Python raises `ValueError`), otherwise a left fold that
replaces the current maximum only when the new element compares strictly
greater — so a NaN first element is kept forever, since every comparison
against NaN is false. -/
def pyMax (l : List F) : Option F :=
  match l with
  | [] => none
  | x :: xs => some (xs.foldl (fun m y => if F.flt m y then y else m) x)

/-- An ionic species: element symbol and oxidation state, as produced by the
external pymatgen `Species` API. -/
structure Species where
  symbol : List Char
  oxi : ℚ
deriving DecidableEq, Repr

/-- Model of the external pymatgen `Species.from_string` API on formal ionic
species strings: an upper-case letter, a run of lower-case letters, an
optional digit run (defaulting to 1) and a mandatory trailing sign `+` or
`-` giving the signed oxidation state; anything else raises, modelled as
`none`.  (The real library also validates the symbol against the periodic
table and allows fractional oxidation states; neither is exercised by the
claims.) -/
def Species.fromString (s : List Char) : Option Species :=
  match s with
  | [] => none
  | c :: rest =>
    if c.isUpper then
      let ls := rest.takeWhile Char.isLower
      let r1 := rest.dropWhile Char.isLower
      let ds := r1.takeWhile Char.isDigit
      let r2 := r1.dropWhile Char.isDigit
      match r2 with
      | ['+'] => some ⟨c :: ls, if ds.isEmpty then 1 else (natOfDigits ds : ℚ)⟩
      | ['-'] => some ⟨c :: ls, -(if ds.isEmpty then 1 else (natOfDigits ds : ℚ))⟩
      | _ => none
    else none

/-- Embedding of `re.match(r"[A-Za-z]+\d+\+", s)` from
`Crystal._parse_species_string` (line 32): a non-empty alphabetic run, then
a non-empty digit run, then a literal `+`, anchored at the start of the
string with the remainder unconstrained.  The character classes are
disjoint, so the greedy runs are exact. -/
def matchesStrict (s : List Char) : Bool :=
  let a := s.takeWhile Char.isAlpha
  let r1 := s.dropWhile Char.isAlpha
  let d := r1.takeWhile Char.isDigit
  let r2 := r1.dropWhile Char.isDigit
  !a.isEmpty && !d.isEmpty && r2.head? == some '+'

/-- Embedding of `Crystal._split_before_first_number` (lines 23-26):
`re.split(r"(?=\d)", s, maxsplit=1)` splits once, just before the first
digit; a string with no digit yields a single-element list. -/
def splitBeforeFirstNumber (s : List Char) : List (List Char) :=
  let pre := s.takeWhile (fun c => !c.isDigit)
  let suf := s.dropWhile (fun c => !c.isDigit)
  if suf.isEmpty then [s] else [pre, suf]

/-- The fallback branch of `Crystal._parse_species_string` (lines 33-34):
`split_str = _split_before_first_number(s); (split_str[0],
round(float(split_str[1][:-1])))`.  `none` when the split has no second
component (Python `IndexError`) or `float` rejects the string with its last
character dropped (Python `ValueError`). -/
def fallbackParse (s : List Char) : Option (List Char × ℚ) :=
  match splitBeforeFirstNumber s with
  | [a, b] =>
    match floatOfString b.dropLast with
    | some q => some (a, (pyRound q : ℚ))
    | none => none
  | _ => none

/-- Embedding of `Crystal._parse_species_string` (lines 28-37): strings
matching the strict pattern are parsed by the pymatgen species constructor;
all others take the fallback path.  Exceptions are embedded as
`Except.error`. -/
def parseSpeciesString (s : List Char) :
    Except String (Option Species × List Char × ℚ) :=
  if matchesStrict s then
    match Species.fromString s with
    | some sp => Except.ok (some sp, sp.symbol, sp.oxi)
    | none => Except.error "SpeciesError"
  else
    match fallbackParse s with
    | some (a, q) => Except.ok (none, a, q)
    | none => Except.error "ValueError"

/-- One row of a property table (`PropertyTable`): element symbol, the
comparison column (`os` for the enthalpy table, `n` for the potential
table) and the property value. -/
structure Row where
  elem : List Char
  comp : ℚ
  value : ℚ
deriving DecidableEq, Repr

/-- A coordination record (`cn_dict`): an insertion-ordered association of
species-key strings to coordination numbers. -/
abbrev CnDict := List (List Char × ℚ)

/-- The pandas row filter of `Crystal._get_values` (line 97):
`(dataframe.elem == symbol) & (dataframe[comparison] == oxidation_state)`. -/
def rowMatches (sp : Species) (r : Row) : Bool :=
  r.elem == sp.symbol && r.comp == sp.oxi

/-- The per-key body of the loop in `Crystal._get_values` (lines 93-101):
parse the key with the pymatgen species constructor (raising on a malformed
key), then take the value of the first table row matching (symbol,
oxidation state), or NaN when no row matches. -/
def lookupValue (table : List Row) (key : List Char) : Except String F :=
  match Species.fromString key with
  | none => Except.error "SpeciesError"
  | some sp =>
    match table.find? (rowMatches sp) with
    | some r => Except.ok (F.val r.value)
    | none => Except.ok F.nan

/-- The inner loop of `Crystal._get_values` (lines 92-102) over one
coordination record: builds the per-site value dictionary in key order. -/
def getValuesRecord (table : List Row) : CnDict → Except String (List (List Char × F))
  | [] => Except.ok []
  | (k, _cn) :: rest =>
    match lookupValue table k, getValuesRecord table rest with
    | Except.ok v, Except.ok vs => Except.ok ((k, v) :: vs)
    | Except.error e, _ => Except.error e
    | _, Except.error e => Except.error e

/-- Embedding of `Crystal._get_values` (lines 87-103): one value dictionary
per coordination record. -/
def getValues (table : List Row) : List CnDict → Except String (List (List (List Char × F)))
  | [] => Except.ok []
  | rec :: rest =>
    match getValuesRecord table rec, getValues table rest with
    | Except.ok v, Except.ok vs => Except.ok (v :: vs)
    | Except.error e, _ => Except.error e
    | _, Except.error e => Except.error e

/-- The CN-weighted enthalpy sum of `get_descriptors` (lines 152-157):
`np.sum(CN_array * Eb_array)` — elementwise product of the two value lists
followed by a sum (0 for an empty record), with NaN poisoning both. -/
def ebSum (cns : List ℚ) (ebs : List F) : F :=
  (List.zipWith (fun c e => (F.val c).mul e) cns ebs).foldl F.add (F.val 0)

/-- The maximum-potential computation of `get_descriptors` (lines 159-165):
`max(Vr_dict.values())` with the `ValueError` on an empty sequence turned
into NaN. -/
def vrMaxOf (vs : List F) : F :=
  match pyMax vs with
  | none => F.nan
  | some m => m

/-- Embedding of the descriptor-aggregation core of `get_descriptors`
(lines 145-165) together with the `_get_values` calls it consumes: from the
coordination records and the two property tables, the per-site `Eb_sum`
and `Vr_max` lists.  The dataframe glue after line 165 is the
spec-declared out-of-scope broken draft code and is not part of the
aggregation core. -/
def getDescriptors (records : List CnDict) (ebTable vrTable : List Row) :
    Except String (List F × List F) :=
  match getValues ebTable records, getValues vrTable records with
  | Except.ok ebVals, Except.ok vrVals =>
    Except.ok
      (List.zipWith (fun rec vals => ebSum (rec.map Prod.snd) (vals.map Prod.snd))
        records ebVals,
       vrVals.map (fun vals => vrMaxOf (vals.map Prod.snd)))
  | Except.error e, _ => Except.error e
  | _, Except.error e => Except.error e

/-! Helper lemmas about the embedded operations. -/

theorem takeWhile_dropWhile_append (p : Char → Bool) (xs ys : List Char)
    (h1 : ∀ x ∈ xs, p x = true)
    (h2 : ∀ y, ys.head? = some y → p y = false) :
    (xs ++ ys).takeWhile p = xs ∧ (xs ++ ys).dropWhile p = ys := by
  induction xs with
  | nil =>
    simp only [List.nil_append]
    cases ys with
    | nil => exact ⟨rfl, rfl⟩
    | cons y ys =>
      have hy := h2 y rfl
      constructor <;> simp [List.takeWhile_cons, List.dropWhile_cons, hy]
  | cons x xs ih =>
    have hx := h1 x (List.mem_cons_self x xs)
    have hrest := ih (fun a ha => h1 a (List.mem_cons_of_mem x ha))
    simp [List.cons_append, List.takeWhile_cons, List.dropWhile_cons, hx, hrest.1, hrest.2]

theorem takeWhile_dropWhile_of_all (p : Char → Bool) (xs : List Char)
    (h : ∀ x ∈ xs, p x = true) :
    xs.takeWhile p = xs ∧ xs.dropWhile p = [] := by
  have hmain := takeWhile_dropWhile_append p xs [] h (fun y hy => by cases hy)
  simpa using hmain

theorem pyRound_natCast (n : ℕ) : pyRound (n : ℚ) = n := by
  unfold pyRound
  rw [Int.floor_natCast]
  norm_num

theorem foldl_add_map_val (l : List ℚ) :
    ∀ a : ℚ, (l.map F.val).foldl F.add (F.val a) = F.val (a + l.sum) := by
  induction l with
  | nil => intro a; simp
  | cons x xs ih =>
    intro a
    have hstep : F.add (F.val a) (F.val x) = F.val (a + x) := rfl
    simp only [List.map_cons, List.foldl_cons, hstep, ih, List.sum_cons]
    ring_nf

theorem zipWith_mul_map_val (cns : List ℚ) :
    ∀ qs : List ℚ, List.zipWith (fun c e => (F.val c).mul e) cns (qs.map F.val)
      = (List.zipWith (fun c q => c * q) cns qs).map F.val := by
  induction cns with
  | nil => intro qs; simp
  | cons c cs ih =>
    intro qs
    cases qs with
    | nil => simp
    | cons q qs =>
      have hstep : (F.val c).mul (F.val q) = F.val (c * q) := rfl
      simp [List.zipWith_cons_cons, hstep, ih]

theorem ebSum_map_val (cns qs : List ℚ) :
    ebSum cns (qs.map F.val)
      = F.val ((List.zipWith (fun c q => c * q) cns qs).sum) := by
  unfold ebSum
  rw [zipWith_mul_map_val, foldl_add_map_val]
  simp

theorem foldl_add_from_nan (l : List F) : l.foldl F.add F.nan = F.nan := by
  induction l with
  | nil => rfl
  | cons x xs ih => simpa [List.foldl_cons, F.add] using ih

theorem foldl_add_of_nan_mem (l : List F) :
    ∀ a : F, F.nan ∈ l → l.foldl F.add a = F.nan := by
  induction l with
  | nil => intro a h; cases h
  | cons x xs ih =>
    intro a h
    rcases List.mem_cons.mp h with h1 | h1
    · subst h1
      have hstep : F.add a F.nan = F.nan := by cases a <;> rfl
      simp only [List.foldl_cons, hstep]
      exact foldl_add_from_nan xs
    · exact ih _ h1

theorem nan_mem_zipWith_mul (cns : List ℚ) :
    ∀ ebs : List F, cns.length = ebs.length → F.nan ∈ ebs →
      F.nan ∈ List.zipWith (fun c e => (F.val c).mul e) cns ebs := by
  induction cns with
  | nil =>
    intro ebs hlen hmem
    cases ebs with
    | nil => cases hmem
    | cons e es => simp at hlen
  | cons c cs ih =>
    intro ebs hlen hmem
    cases ebs with
    | nil => cases hmem
    | cons e es =>
      rcases List.mem_cons.mp hmem with h1 | h1
      · subst h1
        have hstep : (F.val c).mul F.nan = F.nan := rfl
        simp [List.zipWith_cons_cons, hstep]
      · have hlen2 : cs.length = es.length := by simpa using hlen
        exact List.mem_cons.mpr (Or.inr (ih es hlen2 h1))

theorem foldl_pymax_from_nan (l : List F) :
    l.foldl (fun m y => if F.flt m y then y else m) F.nan = F.nan := by
  induction l with
  | nil => rfl
  | cons x xs ih =>
    have hstep : F.flt F.nan x = false := by cases x <;> rfl
    simpa [List.foldl_cons, hstep] using ih

theorem getValuesRecord_keys (table : List Row) (rec : CnDict) :
    ∀ vals, getValuesRecord table rec = Except.ok vals →
      vals.map Prod.fst = rec.map Prod.fst := by
  induction rec with
  | nil =>
    intro vals h
    simp only [getValuesRecord] at h
    cases h
    rfl
  | cons p rest ih =>
    intro vals h
    obtain ⟨k, cn⟩ := p
    simp only [getValuesRecord] at h
    cases hv : lookupValue table k with
    | error e =>
      cases hr : getValuesRecord table rest with
      | error e2 => rw [hv, hr] at h; cases h
      | ok vs => rw [hv, hr] at h; cases h
    | ok v =>
      cases hr : getValuesRecord table rest with
      | error e => rw [hv, hr] at h; cases h
      | ok vs =>
        rw [hv, hr] at h
        cases h
        simp [ih vs hr]

theorem find?_first_match (sp : Species) (pre : List Row) (post : List Row) (row : Row)
    (hrow : rowMatches sp row = true)
    (hpre : ∀ r ∈ pre, rowMatches sp r = false) :
    (pre ++ row :: post).find? (rowMatches sp) = some row := by
  induction pre with
  | nil => simp [List.find?_cons, hrow]
  | cons r rs ih =>
    have hr := hpre r (List.mem_cons_self r rs)
    have hrest := ih (fun a ha => hpre a (List.mem_cons_of_mem r ha))
    simp [List.find?_cons, hr, hrest]

theorem lookupValue_error_of_malformed (table : List Row) (k : List Char)
    (h : Species.fromString k = none) :
    lookupValue table k = Except.error "SpeciesError" := by
  unfold lookupValue
  rw [h]

theorem getValuesRecord_error_of_malformed (table : List Row) (rec : CnDict) :
    ∀ k, k ∈ rec.map Prod.fst → Species.fromString k = none →
      ∃ e, getValuesRecord table rec = Except.error e := by
  induction rec with
  | nil => intro k hk; simp at hk
  | cons p rest ih =>
    intro k hk hnone
    obtain ⟨k2, cn⟩ := p
    simp only [List.map_cons, List.mem_cons] at hk
    simp only [getValuesRecord]
    cases hv : lookupValue table k2 with
    | error e =>
      cases hr : getValuesRecord table rest with
      | error e2 => exact ⟨e, rfl⟩
      | ok vs => exact ⟨e, rfl⟩
    | ok v =>
      rcases hk with h1 | h1
      · subst h1
        rw [lookupValue_error_of_malformed table k hnone] at hv
        cases hv
      · obtain ⟨e, he⟩ := ih k h1 hnone
        rw [he]
        exact ⟨e, rfl⟩

theorem getValues_error_of_record (table : List Row) (records : List CnDict) :
    ∀ rec, rec ∈ records → (∃ e, getValuesRecord table rec = Except.error e) →
      ∃ e, getValues table records = Except.error e := by
  induction records with
  | nil => intro rec hrec; cases hrec
  | cons r rs ih =>
    intro rec hrec herr
    simp only [getValues]
    rcases List.mem_cons.mp hrec with h1 | h1
    · subst h1
      obtain ⟨e, he⟩ := herr
      rw [he]
      cases hr : getValues table rs with
      | error e2 => exact ⟨e, rfl⟩
      | ok vs => exact ⟨e, rfl⟩
    · cases hv : getValuesRecord table r with
      | error e => cases hr : getValues table rs with
        | error e2 => exact ⟨e, rfl⟩
        | ok vs => exact ⟨e, rfl⟩
      | ok v =>
        obtain ⟨e, he⟩ := ih rec h1 herr
        rw [he]
        exact ⟨e, rfl⟩

theorem getDescriptors_error_of_eb (records : List CnDict) (ebTable vrTable : List Row)
    (e : String) (h : getValues ebTable records = Except.error e) :
    getDescriptors records ebTable vrTable = Except.error e := by
  unfold getDescriptors
  rw [h]
  cases hv : getValues vrTable records with
  | error e2 => rfl
  | ok vs => rfl

theorem fallbackParse_eq_of_pieces (s a b : List Char) (q : ℚ) (n : ℤ)
    (hsplit : splitBeforeFirstNumber s = [a, b])
    (hfloat : floatOfString b.dropLast = some q)
    (hround : pyRound q = n) :
    fallbackParse s = some (a, (n : ℚ)) := by
  simp [fallbackParse, hsplit, hfloat, hround]

/-! The claims. -/

/-- Claim C1: for every coordination record in which every species key
resolves to a known enthalpy row (every looked-up value is a rational, not
NaN), the computed Eb_sum equals the exact weighted dot product of the
coordination numbers and the looked-up enthalpies. -/
theorem c1_eb_sum_is_exact_dot_product (table : List Row) (rec : CnDict)
    (vals : List (List Char × F)) (qs : List ℚ)
    (h1 : getValuesRecord table rec = Except.ok vals)
    (h2 : vals.map Prod.snd = qs.map F.val) :
    ebSum (rec.map Prod.snd) (vals.map Prod.snd)
      = F.val ((List.zipWith (fun c q => c * q) (rec.map Prod.snd) qs).sum) := by
  rw [h2, ebSum_map_val]

/-- Witness for C1 at the literal record of the claim:
`{"Fe3+": 2.0, "O2-": 4.0}` with enthalpy rows `Fe,3,1.5` and `O,-2,2.0`
gives `Eb_sum = 2.0*1.5 + 4.0*2.0 = 11.0`. -/
theorem c1_witness :
    ebSum (([(("Fe3+".toList), (2 : ℚ)), (("O2-".toList), 4)] : CnDict).map Prod.snd)
      (([(("Fe3+".toList), F.val (3 / 2)), (("O2-".toList), F.val 2)]).map Prod.snd)
      = F.val 11 := by
  have h := c1_eb_sum_is_exact_dot_product
    [⟨"Fe".toList, 3, 3 / 2⟩, ⟨"O".toList, -2, 2⟩]
    [(("Fe3+".toList), (2 : ℚ)), (("O2-".toList), 4)]
    [(("Fe3+".toList), F.val (3 / 2)), (("O2-".toList), F.val 2)]
    [3 / 2, 2] rfl rfl
  rw [h]
  norm_num [List.zipWith]

/-- Counterexample to claim C2 as stated: the fallback-form key "Fe3" does
not parse to (symbol "Fe", oxidation state 3); the code drops the final
character of the trailing numeric run, leaving the empty string, and
`float("")` raises `ValueError`. -/
theorem c2_counterexample :
    parseSpeciesString ("Fe3".toList) = Except.error "ValueError" ∧
      parseSpeciesString ("Fe3".toList) ≠ Except.ok (none, "Fe".toList, (3 : ℚ)) := by
  refine ⟨rfl, ?_⟩
  intro h
  have h2 : (Except.error "ValueError" :
      Except String (Option Species × List Char × ℚ))
        = Except.ok (none, "Fe".toList, (3 : ℚ)) :=
    (rfl : parseSpeciesString ("Fe3".toList) = Except.error "ValueError").symm.trans h
  exact Except.noConfusion h2

/-- Claim C2 (amended): on every fallback-form key the parser returns the
leading alphabetic run as the symbol, but it first drops the final
character of the trailing run; so a key with a trailing sign character,
such as "Fe3-", yields (symbol "Fe", oxidation state 3), while a bare
numeric suffix such as "Fe3" fails to parse. -/
theorem c2_fallback_strips_last_char (sym ds : List Char)
    (hsym : sym ≠ [] ∧ ∀ c ∈ sym, c.isAlpha = true ∧ c.isDigit = false)
    (hds : ds ≠ [] ∧ ∀ c ∈ ds, c.isDigit = true ∧ c.isAlpha = false) :
    parseSpeciesString (sym ++ (ds ++ ['-']))
      = Except.ok (none, sym, (natOfDigits ds : ℚ)) := by
  obtain ⟨hsymne, hsymc⟩ := hsym
  obtain ⟨hdsne, hdsc⟩ := hds
  have hdsne2 : ds.isEmpty = false := by
    cases ds with
    | nil => exact absurd rfl hdsne
    | cons d t => rfl
  have hdshead : ∀ y, (ds ++ ['-']).head? = some y → Char.isAlpha y = false := by
    cases ds with
    | nil => exact absurd rfl hdsne
    | cons d ds2 =>
      intro y hy
      simp only [List.cons_append, List.head?_cons, Option.some.injEq] at hy
      subst hy
      exact (hdsc d (List.mem_cons_self d ds2)).2
  have hA := takeWhile_dropWhile_append Char.isAlpha sym (ds ++ ['-'])
    (fun x hx => (hsymc x hx).1) hdshead
  have hDhead : ∀ y, (['-'] : List Char).head? = some y → Char.isDigit y = false := by
    intro y hy
    simp only [List.head?_cons, Option.some.injEq] at hy
    subst hy
    rfl
  have hD := takeWhile_dropWhile_append Char.isDigit ds ['-']
    (fun x hx => (hdsc x hx).1) hDhead
  have hmatch : matchesStrict (sym ++ (ds ++ ['-'])) = false := by
    simp only [matchesStrict]
    rw [hA.1, hA.2, hD.1, hD.2]
    have hplus : ((List.head? (['-'] : List Char)) == (some '+' : Option Char)) = false := rfl
    rw [hplus]
    simp
  have hsplithead : ∀ y, (ds ++ ['-']).head? = some y → (!Char.isDigit y) = false := by
    cases ds with
    | nil => exact absurd rfl hdsne
    | cons d ds2 =>
      intro y hy
      simp only [List.cons_append, List.head?_cons, Option.some.injEq] at hy
      subst hy
      simp [(hdsc d (List.mem_cons_self d ds2)).1]
  have hS := takeWhile_dropWhile_append (fun c => !c.isDigit) sym (ds ++ ['-'])
    (fun x hx => by simp [(hsymc x hx).2]) hsplithead
  have hsufne : ((ds ++ ['-']) : List Char).isEmpty = false := by
    cases ds <;> rfl
  have hsplit : splitBeforeFirstNumber (sym ++ (ds ++ ['-'])) = [sym, ds ++ ['-']] := by
    unfold splitBeforeFirstNumber
    rw [hS.1, hS.2]
    simp [hsufne]
  have hT := takeWhile_dropWhile_of_all Char.isDigit ds (fun x hx => (hdsc x hx).1)
  have hfloat : floatOfString ((ds ++ ['-']).dropLast)
      = some ((natOfDigits ds : ℕ) : ℚ) := by
    rw [show ((ds ++ ['-']).dropLast) = ds by simp]
    unfold floatOfString
    rw [hT.1, hT.2]
    simp [hdsne2]
  have hfb := fallbackParse_eq_of_pieces (sym ++ (ds ++ ['-'])) sym (ds ++ ['-'])
    ((natOfDigits ds : ℕ) : ℚ) (natOfDigits ds) hsplit hfloat (pyRound_natCast _)
  simp [parseSpeciesString, hmatch, hfb]

/-- Witness for C2 applying the amended theorem at "Fe3-": the parser
yields (symbol "Fe", oxidation state 3), the trailing minus stripped. -/
theorem c2_witness :
    parseSpeciesString ("Fe".toList ++ ("3".toList ++ ['-']))
      = Except.ok (none, "Fe".toList, (3 : ℚ)) := by
  have h := c2_fallback_strips_last_char ("Fe".toList) ("3".toList)
    (by decide) (by decide)
  simpa [show natOfDigits ("3".toList) = 3 from rfl] using h

/-- Counterexample to claim C3 as stated: "O2-" is a formal ionic species
string, but the parser returns oxidation state +2 for it (fallback path,
sign character stripped without negating), while direct construction from
the formal string gives −2. -/
theorem c3_counterexample :
    parseSpeciesString ("O2-".toList) = Except.ok (none, "O".toList, (2 : ℚ)) ∧
      Species.fromString ("O2-".toList) = some ⟨"O".toList, (-2 : ℚ)⟩ ∧
      (2 : ℚ) ≠ (-2 : ℚ) := by
  refine ⟨?_, rfl, by norm_num⟩
  have hm : matchesStrict ("O2-".toList) = false := rfl
  have hfb := fallbackParse_eq_of_pieces ("O2-".toList) ("O".toList) ("2-".toList)
    ((natOfDigits ("2".toList) : ℕ) : ℚ) (natOfDigits ("2".toList)) rfl rfl
    (pyRound_natCast _)
  have hn : natOfDigits ("2".toList) = 2 := rfl
  rw [hn] at hfb
  unfold parseSpeciesString
  rw [hm, hfb]
  simp

/-- Claim C3 (amended): for every species key matching the strict pattern
(symbol, digits, trailing plus), the parser returns exactly the (symbol,
oxidation state) pair produced by constructing the species directly from
its formal string representation; minus-sign keys are not covered, as they
take the fallback path. -/
theorem c3_strict_agrees_with_construction (u : Char) (ls ds : List Char)
    (hu : u.isUpper = true ∧ u.isAlpha = true)
    (hls : ∀ c ∈ ls, c.isLower = true ∧ c.isAlpha = true)
    (hds : ds ≠ [] ∧ ∀ c ∈ ds, c.isDigit = true ∧ c.isAlpha = false ∧ c.isLower = false) :
    Species.fromString (u :: (ls ++ (ds ++ ['+'])))
        = some ⟨u :: ls, (natOfDigits ds : ℚ)⟩ ∧
      parseSpeciesString (u :: (ls ++ (ds ++ ['+'])))
        = Except.ok (some ⟨u :: ls, (natOfDigits ds : ℚ)⟩, u :: ls,
            (natOfDigits ds : ℚ)) := by
  obtain ⟨hdsne, hdsc⟩ := hds
  have hdsne2 : ds.isEmpty = false := by
    cases ds with
    | nil => exact absurd rfl hdsne
    | cons d t => rfl
  have hdshead_lower : ∀ y, (ds ++ ['+']).head? = some y → Char.isLower y = false := by
    cases ds with
    | nil => exact absurd rfl hdsne
    | cons d ds2 =>
      intro y hy
      simp only [List.cons_append, List.head?_cons, Option.some.injEq] at hy
      subst hy
      exact (hdsc d (List.mem_cons_self d ds2)).2.2
  have hdshead_alpha : ∀ y, (ds ++ ['+']).head? = some y → Char.isAlpha y = false := by
    cases ds with
    | nil => exact absurd rfl hdsne
    | cons d ds2 =>
      intro y hy
      simp only [List.cons_append, List.head?_cons, Option.some.injEq] at hy
      subst hy
      exact (hdsc d (List.mem_cons_self d ds2)).2.1
  have hL := takeWhile_dropWhile_append Char.isLower ls (ds ++ ['+'])
    (fun x hx => (hls x hx).1) hdshead_lower
  have hDhead : ∀ y, (['+'] : List Char).head? = some y → Char.isDigit y = false := by
    intro y hy
    simp only [List.head?_cons, Option.some.injEq] at hy
    subst hy
    rfl
  have hD := takeWhile_dropWhile_append Char.isDigit ds ['+']
    (fun x hx => (hdsc x hx).1) hDhead
  have hfs : Species.fromString (u :: (ls ++ (ds ++ ['+'])))
      = some ⟨u :: ls, (natOfDigits ds : ℚ)⟩ := by
    simp only [Species.fromString, hu.1]
    rw [hL.1, hL.2, hD.1, hD.2]
    simp [hdsne2]
  have hA := takeWhile_dropWhile_append Char.isAlpha (u :: ls) (ds ++ ['+'])
    (fun x hx => by
      rcases List.mem_cons.mp hx with h1 | h1
      · subst h1; exact hu.2
      · exact (hls x h1).2) hdshead_alpha
  have hmatch : matchesStrict (u :: (ls ++ (ds ++ ['+']))) = true := by
    simp only [matchesStrict]
    rw [← List.cons_append, hA.1, hA.2, hD.1, hD.2, hdsne2]
    have hplus : ((List.head? (['+'] : List Char)) == (some '+' : Option Char)) = true := rfl
    rw [hplus]
    simp
  refine ⟨hfs, ?_⟩
  simp [parseSpeciesString, hmatch, hfs]

/-- Witness for C3 at "Fe3+": the parser and direct construction both give
(symbol "Fe", oxidation state 3). -/
theorem c3_witness :
    Species.fromString ('F' :: ("e".toList ++ ("3".toList ++ ['+'])))
        = some ⟨'F' :: "e".toList, (3 : ℚ)⟩ ∧
      parseSpeciesString ('F' :: ("e".toList ++ ("3".toList ++ ['+'])))
        = Except.ok (some ⟨'F' :: "e".toList, (3 : ℚ)⟩, 'F' :: "e".toList, (3 : ℚ)) := by
  have h := c3_strict_agrees_with_construction 'F' ("e".toList) ("3".toList)
    (by decide) (by decide) (by decide)
  simpa [show natOfDigits ("3".toList) = 3 from rfl] using h

/-- Claim C4: a resolved species with no matching row in the property table
is looked up as the explicit NaN sentinel, and its key still appears in the
per-site value dictionary. -/
theorem c4_unknown_property_is_nan (table : List Row) (rec : CnDict) :
    ∀ vals, getValuesRecord table rec = Except.ok vals →
      ∀ k sp, k ∈ rec.map Prod.fst → Species.fromString k = some sp →
        table.find? (rowMatches sp) = none → (k, F.nan) ∈ vals := by
  induction rec with
  | nil => intro vals h k sp hk; simp at hk
  | cons p rest ih =>
    intro vals h k sp hk hsp hnone
    obtain ⟨k2, cn⟩ := p
    simp only [getValuesRecord] at h
    cases hv : lookupValue table k2 with
    | error e =>
      cases hr : getValuesRecord table rest with
      | error e2 => rw [hv, hr] at h; cases h
      | ok vs => rw [hv, hr] at h; cases h
    | ok v =>
      cases hr : getValuesRecord table rest with
      | error e => rw [hv, hr] at h; cases h
      | ok vs =>
        rw [hv, hr] at h
        cases h
        simp only [List.map_cons, List.mem_cons] at hk
        rcases hk with h1 | h1
        · subst h1
          have hnan : lookupValue table k = Except.ok F.nan := by
            simp [lookupValue, hsp, hnone]
          rw [hv] at hnan
          cases hnan
          exact List.mem_cons_self _ _
        · exact List.mem_cons.mpr (Or.inr (ih vs hr k sp h1 hsp hnone))

/-- Witness for C4: record `{"O2-": 1.0}` against an enthalpy table with
only an `Fe,3` row: the key is kept and its value is NaN. -/
theorem c4_witness :
    (("O2-".toList), F.nan) ∈ [(("O2-".toList), F.nan)] :=
  c4_unknown_property_is_nan [⟨"Fe".toList, 3, 3 / 2⟩] [(("O2-".toList), (1 : ℚ))]
    [(("O2-".toList), F.nan)] rfl ("O2-".toList) ⟨"O".toList, -2⟩
    (by decide) rfl rfl

/-- Claim C5: `Vr_max` over an empty coordination record, or over a record
whose potentials are all unknown, is the NaN sentinel. -/
theorem c5_vr_max_unknown_is_nan (vs : List F)
    (h : vs = [] ∨ ∀ v ∈ vs, v = F.nan) :
    vrMaxOf vs = F.nan := by
  rcases h with h | h
  · subst h; rfl
  · cases vs with
    | nil => rfl
    | cons x xs =>
      have hx : x = F.nan := h x (List.mem_cons_self x xs)
      subst hx
      simp only [vrMaxOf, pyMax]
      exact foldl_pymax_from_nan xs

/-- Witness for C5: the empty record and an all-unknown record both give
NaN. -/
theorem c5_witness :
    vrMaxOf [] = F.nan ∧ vrMaxOf [F.nan, F.nan] = F.nan :=
  ⟨c5_vr_max_unknown_is_nan [] (Or.inl rfl),
   c5_vr_max_unknown_is_nan [F.nan, F.nan] (Or.inr (by decide))⟩

/-- Claim C6: a coordination record containing at least one species whose
enthalpy lookup is unknown has NaN as its Eb_sum — the unknown term poisons
the whole sum rather than being excluded. -/
theorem c6_unknown_term_poisons_eb_sum (table : List Row) (rec : CnDict)
    (vals : List (List Char × F)) (k : List Char)
    (h : getValuesRecord table rec = Except.ok vals)
    (hmem : (k, F.nan) ∈ vals) :
    ebSum (rec.map Prod.snd) (vals.map Prod.snd) = F.nan := by
  have hkeys := getValuesRecord_keys table rec vals h
  have hlen : (rec.map Prod.snd).length = (vals.map Prod.snd).length := by
    have hlk := congrArg List.length hkeys
    simpa using hlk.symm
  have hnan : F.nan ∈ vals.map Prod.snd :=
    List.mem_map.mpr ⟨(k, F.nan), hmem, rfl⟩
  unfold ebSum
  exact foldl_add_of_nan_mem _ _ (nan_mem_zipWith_mul _ _ hlen hnan)

/-- Witness for C6: record `{"Fe3+": 2.0, "O2-": 4.0}` where only Fe has an
enthalpy row: the whole sum is NaN. -/
theorem c6_witness :
    ebSum (([(("Fe3+".toList), (2 : ℚ)), (("O2-".toList), 4)] : CnDict).map Prod.snd)
      (([(("Fe3+".toList), F.val (3 / 2)), (("O2-".toList), F.nan)]).map Prod.snd)
      = F.nan :=
  c6_unknown_term_poisons_eb_sum [⟨"Fe".toList, 3, 3 / 2⟩]
    [(("Fe3+".toList), (2 : ℚ)), (("O2-".toList), 4)]
    [(("Fe3+".toList), F.val (3 / 2)), (("O2-".toList), F.nan)]
    ("O2-".toList) rfl (by decide)

/-- Claim C7: when the property table contains several rows matching the
same (symbol, comparison) pair, a lookup returns the value of the first
matching row in table order. -/
theorem c7_first_match_lookup (pre : List Row) (post : List Row) (row : Row)
    (key : List Char) (sp : Species)
    (hsp : Species.fromString key = some sp)
    (hrow : rowMatches sp row = true)
    (hpre : ∀ r ∈ pre, rowMatches sp r = false) :
    lookupValue (pre ++ row :: post) key = Except.ok (F.val row.value) := by
  simp [lookupValue, hsp, find?_first_match sp pre post row hrow hpre]

/-- Witness for C7: a table with two `Fe,3` rows, values 1.5 and 99; the
lookup for "Fe3+" returns 1.5, the first row. -/
theorem c7_witness :
    lookupValue [⟨"Fe".toList, 3, 3 / 2⟩, ⟨"Fe".toList, 3, 99⟩] ("Fe3+".toList)
      = Except.ok (F.val (3 / 2)) := by
  have h := c7_first_match_lookup [] [⟨"Fe".toList, 3, 99⟩] ⟨"Fe".toList, 3, 3 / 2⟩
    ("Fe3+".toList) ⟨"Fe".toList, 3⟩ (by decide) (by decide) (by decide)
  simpa using h

/-- Claim C8: a species key that neither the strict nor the fallback
grammar can parse makes the parser fail, and makes the whole aggregation
fail with a propagated error instead of silently dropping the site. -/
theorem c8_malformed_key_propagates (records : List CnDict) (ebTable vrTable : List Row)
    (rec : CnDict) (k : List Char)
    (hrec : rec ∈ records) (hk : k ∈ rec.map Prod.fst)
    (hstrict : Species.fromString k = none)
    (hfall : fallbackParse k = none) :
    (∃ e, parseSpeciesString k = Except.error e) ∧
      ∃ e, getDescriptors records ebTable vrTable = Except.error e := by
  constructor
  · cases hm : matchesStrict k with
    | true =>
      exact ⟨"SpeciesError", by simp [parseSpeciesString, hm, hstrict]⟩
    | false =>
      exact ⟨"ValueError", by simp [parseSpeciesString, hm, hfall]⟩
  · obtain ⟨e, he⟩ := getValues_error_of_record ebTable records rec hrec
      (getValuesRecord_error_of_malformed ebTable rec k hk hstrict)
    exact ⟨e, getDescriptors_error_of_eb records ebTable vrTable e he⟩

/-- Witness for C8: the key "??" (no digit, not a species string) makes
both the parser and the aggregation over `[{"??": 1.0}]` fail. -/
theorem c8_witness :
    (∃ e, parseSpeciesString ("??".toList) = Except.error e) ∧
      ∃ e, getDescriptors [[(("??".toList), (1 : ℚ))]] [] [] = Except.error e :=
  c8_malformed_key_propagates [[(("??".toList), (1 : ℚ))]] [] []
    [(("??".toList), (1 : ℚ))] ("??".toList)
    (by decide) (by decide) (by decide) (by decide)

/-- Claim C9: zero coordination records give an empty result sequence
(empty Eb_sum list, empty Vr_max list, empty per-site value list) and no
error. -/
theorem c9_empty_input_empty_output (ebTable vrTable table : List Row) :
    getDescriptors [] ebTable vrTable = Except.ok ([], []) ∧
      getValues table [] = Except.ok [] :=
  ⟨rfl, rfl⟩

/-- Claim C10: aggregation is a deterministic pure function of its inputs —
identical records and identical tables give identical Eb_sum and Vr_max
outputs. -/
theorem c10_deterministic (r1 r2 : List CnDict) (e1 e2 v1 v2 : List Row)
    (h1 : r1 = r2) (h2 : e1 = e2) (h3 : v1 = v2) :
    getDescriptors r1 e1 v1 = getDescriptors r2 e2 v2 := by
  subst h1
  subst h2
  subst h3
  rfl

/-- Witness for C10 at a concrete input. -/
theorem c10_witness :
    getDescriptors [[(("Fe3+".toList), (2 : ℚ))]] [⟨"Fe".toList, 3, 3 / 2⟩] []
      = getDescriptors [[(("Fe3+".toList), (2 : ℚ))]] [⟨"Fe".toList, 3, 3 / 2⟩] [] :=
  c10_deterministic [[(("Fe3+".toList), (2 : ℚ))]] [[(("Fe3+".toList), (2 : ℚ))]]
    [⟨"Fe".toList, 3, 3 / 2⟩] [⟨"Fe".toList, 3, 3 / 2⟩] [] [] rfl rfl rfl

end CrystalAnalysis
